import Mathlib

/-!
Verification development for the gosh shell (Go): a shallow embedding of the
executor (`internal/executor`), the variable store (`internal/variables`),
the builtin registry (`internal/builtin`) and the job manager
(`internal/jobs`), with theorems settling the spec claims about them.

Go strings are modelled as Lean `String`; Go maps are modelled as
association lists (list order stands in for Go's map iteration order);
machine integers are `Int`; the process trace (spawned processes, builtin
invocations, error reports, mutations of the process-wide `os.Stdin`) is
recorded as an explicit event list in the world state.
-/

namespace Gosh

/-! ## String machinery (models of Go's strings/filepath library calls) -/

/-- Model of `strings.Split(s, sep)` for a one-character separator,
working on character lists. -/
def splitChar (sep : Char) : List Char → List (List Char)
  | [] => [[]]
  | c :: cs =>
    match splitChar sep cs with
    | [] => [[]]
    | g :: gs => if c = sep then [] :: g :: gs else (c :: g) :: gs

/-- Fuel-driven core of `strings.ReplaceAll`: replaces non-overlapping
occurrences of `pat` left to right. The fuel is the length of the subject,
which bounds the number of steps. -/
def replaceAllAux (pat rep : List Char) : Nat → List Char → List Char
  | _, [] => []
  | 0, s => s
  | fuel + 1, c :: rest =>
    if pat ≠ [] ∧ pat.isPrefixOf (c :: rest) then
      rep ++ replaceAllAux pat rep fuel (List.drop (pat.length - 1) rest)
    else
      c :: replaceAllAux pat rep fuel rest

/-- `replaceAllAux` with its fuel instantiated to the subject's length,
which is always enough. -/
def replaceAllL (pat rep s : List Char) : List Char :=
  replaceAllAux pat rep s.length s

/-- Model of Go's `strings.ReplaceAll(s, pat, rep)`. -/
def replaceAllStr (s pat rep : String) : String :=
  String.mk (replaceAllL pat.toList rep.toList s.toList)

/-- Whether `pat` occurs as a contiguous substring (at any position). -/
def hasOcc (pat : List Char) : List Char → Bool
  | [] => pat.isEmpty
  | c :: rest => pat.isPrefixOf (c :: rest) || hasOcc pat rest

/-- String-level occurrence test. -/
def hasOccStr (pat s : String) : Bool :=
  hasOcc pat.toList s.toList

/-- Interleave a separator between pieces (character-list level): the text
`x₀ ++ sep ++ x₁ ++ sep ++ … ++ xₖ`. -/
def joinWithL (sep : List Char) : List (List Char) → List Char
  | [] => []
  | [x] => x
  | x :: xs => x ++ sep ++ joinWithL sep xs

/-- Interleave a separator between pieces (string level). -/
def joinWith (sep : String) : List String → String
  | [] => ""
  | [x] => x
  | x :: xs => x ++ sep ++ joinWith sep xs

/-- Model of `strings.Split(s, ":")`. -/
def splitColon (s : String) : List String :=
  (splitChar ':' s.toList).map (fun l => String.mk l)

/-- Model of `path/filepath.Join(dir, name)` for directory entries without
trailing slashes or dot segments (the cleaning phase is the identity there). -/
def joinPath (dir name : String) : String :=
  if dir = "" then name else dir ++ "/" ++ name

/-- Model of `strings.Contains(name, "/")`. -/
def containsSlash (name : String) : Bool :=
  name.toList.contains '/'

/-! ## Variable store (`internal/variables/variables.go`) -/

/-- The `Variable` record of `variables.go`. -/
structure Variable where
  name : String
  value : String
  exported : Bool
  readOnly : Bool
  array : Bool
  values : List String
  deriving DecidableEq

/-- Lookup in the `vars` map, modelled on an association list. -/
def lookupVar : List Variable → String → Option Variable
  | [], _ => none
  | v :: rest, n => if v.name = n then some v else lookupVar rest n

/-- Map assignment `m.vars[name] = nv`: replace the entry or append it. -/
def setVarEntry : List Variable → String → Variable → List Variable
  | [], _, nv => [nv]
  | v :: rest, n, nv => if v.name = n then nv :: rest else v :: setVarEntry rest n nv

/-- Environment (`os.Environ`) lookup; `os.Getenv` yields `""` when unset. -/
def envGet : List (String × String) → String → String
  | [], _ => ""
  | p :: rest, n => if p.1 = n then p.2 else envGet rest n

/-- `os.Setenv`: replace the entry or append it. -/
def envSet : List (String × String) → String → String → List (String × String)
  | [], n, v => [(n, v)]
  | p :: rest, n, v => if p.1 = n then (n, v) :: rest else p :: envSet rest n v

/-- `Manager.Get`: the store wins, then the process environment, then `""`. -/
def managerGet (vars : List Variable) (env : List (String × String)) (name : String) : String :=
  match lookupVar vars name with
  | some v => v.value
  | none => envGet env name

/-- `Manager.Set`: rejects a read-only variable; otherwise overwrites the
entry (keeping the exported flag of an existing entry, dropping array data)
and synchronises the process environment when the variable is exported. -/
def managerSet (vars : List Variable) (env : List (String × String)) (name value : String) :
    Except String (List Variable × List (String × String)) :=
  match lookupVar vars name with
  | some ex =>
    if ex.readOnly then
      Except.error ("variable " ++ name ++ " is read-only")
    else
      Except.ok (setVarEntry vars name ⟨name, value, ex.exported, false, false, []⟩,
        if ex.exported then envSet env name value else env)
  | none =>
    Except.ok (setVarEntry vars name ⟨name, value, false, false, false, []⟩, env)

/-- `Manager.SubstituteVariables`: for each stored variable, textually
replace `$NAME` and then `$\x7bNAME\x7d`; finally replace `$$` by the
interpreter's pid and `$?` by the literal `"0"`. -/
def substituteVariables (vars : List Variable) (pid : Nat) (text : String) : String :=
  let r := vars.foldl (fun acc v =>
    replaceAllStr (replaceAllStr acc ("$" ++ v.name) v.value)
      ("$\x7b" ++ v.name ++ "\x7d") v.value) text
  replaceAllStr (replaceAllStr r "$$" (toString pid)) "$?" "0"

/-! ## Filesystem, events and world state -/

/-- What the model filesystem knows about a path: current contents and the
executable permission bit (`os.Stat` only checks presence; the bit matters
for stating what the spec calls an "executable match"). -/
structure FileEntry where
  contents : String
  executable : Bool
  deriving DecidableEq

/-- Filesystem lookup (success of `os.Stat`/reading an entry). -/
def fsFind : List (String × FileEntry) → String → Option FileEntry
  | [], _ => none
  | e :: rest, p => if e.1 = p then some e.2 else fsFind rest p

/-- Write `s` as the full contents of `p` (the effect of `os.Create`:
truncate an existing file, or create a fresh non-executable one). -/
def updateEntry : List (String × FileEntry) → String → String → List (String × FileEntry)
  | [], p, s => [(p, ⟨s, false⟩)]
  | e :: rest, p, s =>
    if e.1 = p then (p, ⟨s, e.2.executable⟩) :: rest else e :: updateEntry rest p s

/-- The effect of `os.OpenFile(p, O_WRONLY|O_CREATE|O_APPEND, 0644)` on the
filesystem: create an empty file when absent, leave an existing one alone. -/
def ensureEntry : List (String × FileEntry) → String → List (String × FileEntry)
  | [], p => [(p, ⟨"", false⟩)]
  | e :: rest, p => if e.1 = p then e :: rest else e :: ensureEntry rest p

/-- Observable events of an execution: processes spawned, builtins invoked,
error reports printed, assignments to the process-wide `os.Stdin`, the two
pipeline stages signalling completion on the `done` channel, and one marker
per loop-body evaluation. -/
inductive Event where
  | spawn (path : String) (args : List String)
  | builtinCall (name : String) (args : List String)
  | report (msg : String)
  | setStdin (h : Nat)
  | stageDone (isLeft : Bool)
  | bodyRun
  deriving DecidableEq

/-- The mutable world threaded through execution: the variable store, the
process environment, the filesystem, the set of paths whose open/create
fails, the current process-wide `os.Stdin` handle, a fresh-handle counter
for `os.Pipe`, and the event trace. -/
structure World where
  vars : List Variable
  env : List (String × String)
  fs : List (String × FileEntry)
  badPaths : List String
  stdinH : Nat
  nextH : Nat
  trace : List Event
  deriving DecidableEq

/-- Append one event to the trace. -/
def pushEvent (w : World) (e : Event) : World :=
  { w with trace := w.trace ++ [e] }

/-- Number of `spawn` events in a trace. -/
def spawnCount (t : List Event) : Nat :=
  t.countP fun e => match e with | Event.spawn _ _ => true | _ => false

/-- Immutable execution context: the interpreter's pid, the builtin
registry (`builtin.Manager`, an association list standing for its map), and
an oracle giving the exit status of a spawned external process. -/
structure Config where
  pid : Nat
  builtins : List (String × (List String → Int))
  procExit : String → List String → Int

/-- `builtin.Manager.Get`: map lookup, `none` for an unregistered name. -/
def builtinsGet : List (String × (List String → Int)) → String → Option (List String → Int)
  | [], _ => none
  | b :: rest, n => if b.1 = n then some b.2 else builtinsGet rest n

/-! ## AST (`internal/ast/ast.go`) -/

/-- The redirect type tags of `ast.go`. -/
inductive RedirectType where
  | input
  | output
  | append
  | errorOut
  | errorAppend
  | inputOutput
  | hereDoc
  | hereString
  deriving DecidableEq

/-- The `Redirect` node of `ast.go`. -/
structure Redirect where
  rtype : RedirectType
  source : Int
  target : String
  hereDocBody : String
  deriving DecidableEq

/-- The `SimpleCommand` node of `ast.go` (the parsed `Env` map is unused by
the executor and omitted). -/
structure SimpleCommand where
  name : String
  args : List String
  redirects : List Redirect
  deriving DecidableEq

/-- The `Command` tree of `ast.go`, with the tag/payload invariant baked in
(one constructor per `CommandType`). -/
inductive Command where
  | simple (cmd : SimpleCommand)
  | pipeline (left right : Command)
  | background (c : Command)
  | list (cmds : List Command) (ops : List String)
  | ifc (cond thenBranch : Command) (elseBranch : Option Command)
  | forc (varName : String) (values : List String) (body : Command)
  | whilec (cond body : Command)
  | casec (word : String) (cases : List (List String × Command))
  | funcdef (name : String) (body : Command)
  | subshell (c : Command)
  | group (cmds : List Command)

/-! ## External resolution (`findCommand`, `part_002` lines 115-136) -/

/-- The fallback `PATH` used when the variable is empty. -/
def defaultPath : String := "/usr/local/bin:/usr/bin:/bin"

/-- Success of `os.Stat` in the model: the path has a filesystem entry. -/
def statOk (w : World) (p : String) : Bool :=
  (fsFind w.fs p).isSome

/-- The directories `findCommand` scans: the colon-split `PATH` value, with
the hard-coded default when `PATH` resolves to the empty string. -/
def searchDirs (w : World) : List String :=
  let path := managerGet w.vars w.env "PATH"
  splitColon (if path = "" then defaultPath else path)

/-- The scanning loop of `findCommand`: first directory whose joined path
passes `os.Stat` wins. -/
def firstHit (w : World) : List String → String → Option String
  | [], _ => none
  | d :: ds, name =>
    let p := joinPath d name
    if statOk w p then some p else firstHit w ds name

/-- `Executor.findCommand`: a name with a slash is stat-tested directly;
otherwise the `PATH` directories are scanned in order. -/
def findCommand (w : World) (name : String) : Option String :=
  if containsSlash name then
    if statOk w name then some name else none
  else
    firstHit w (searchDirs w) name

/-! ## Redirects (`setupRedirects`, `part_002` lines 138-182) -/

/-- The stream bindings accumulated by `setupRedirects`: `none` means the
stream is left on the interpreter's own standard stream. The `Bool` on the
output binding records append mode. -/
structure Bindings where
  stdin : Option String
  stdout : Option (String × Bool)
  stderrB : Option String
  deriving DecidableEq

/-- The all-inherit binding state `exec.Cmd` starts from. -/
def emptyBindings : Bindings := ⟨none, none, none⟩

/-- `Executor.setupRedirects`: process redirects in declaration order; a
later redirect for the same stream overwrites the binding; `>` truncates or
creates its target at open time, `>>` opens in append mode (creating an
empty file when absent), `<` requires the target to exist; any open failure
stops with an error. Redirect types without a case in the Go switch are
ignored. -/
def setupRedirects : List Redirect → World → Bindings → Except String Bindings × World
  | [], w, b => (Except.ok b, w)
  | r :: rs, w, b =>
    match r.rtype with
    | RedirectType.input =>
      if statOk w r.target ∧ r.target ∉ w.badPaths then
        setupRedirects rs w { b with stdin := some r.target }
      else
        (Except.error ("cannot open " ++ r.target), w)
    | RedirectType.output =>
      if r.target ∈ w.badPaths then
        (Except.error ("cannot create " ++ r.target), w)
      else
        setupRedirects rs { w with fs := updateEntry w.fs r.target "" }
          { b with stdout := some (r.target, false) }
    | RedirectType.append =>
      if r.target ∈ w.badPaths then
        (Except.error ("cannot open " ++ r.target), w)
      else
        setupRedirects rs { w with fs := ensureEntry w.fs r.target }
          { b with stdout := some (r.target, true) }
    | RedirectType.errorOut =>
      if r.target ∈ w.badPaths then
        (Except.error ("cannot create " ++ r.target), w)
      else
        setupRedirects rs { w with fs := updateEntry w.fs r.target "" }
          { b with stderrB := some r.target }
    | _ => setupRedirects rs w b

/-! ## Simple-command execution (`part_002` lines 68-113) -/

/-- `Executor.executeExternal`: resolve the name (status 127 plus a
"command not found" report when that fails), set up redirects (status 1
plus a report on failure, the process never launched), then spawn the
process and return its wait status. -/
def executeExternal (cfg : Config) (name : String) (args : List String)
    (redirects : List Redirect) (w : World) : Int × World :=
  match findCommand w name with
  | none => (127, pushEvent w (Event.report ("gosh: " ++ name ++ ": command not found")))
  | some cmdPath =>
    match setupRedirects redirects w emptyBindings with
    | (Except.error msg, w') => (1, pushEvent w' (Event.report ("gosh: " ++ msg)))
    | (Except.ok _, w') => (cfg.procExit cmdPath args, pushEvent w' (Event.spawn cmdPath args))

/-- `Executor.executeSimple`: an empty name yields 0; otherwise substitute
the name and every argument, try the builtin registry first (invoking the
builtin directly on the substituted arguments), and fall back to external
execution. -/
def executeSimple (cfg : Config) (cmd : SimpleCommand) (w : World) : Int × World :=
  if cmd.name = "" then (0, w)
  else
    let name := substituteVariables w.vars cfg.pid cmd.name
    let args := cmd.args.map (substituteVariables w.vars cfg.pid)
    match builtinsGet cfg.builtins name with
    | some b => (b args, pushEvent w (Event.builtinCall name args))
    | none => executeExternal cfg name args cmd.redirects w

/-! ## Pipelines (`executePipeline`, `part_002` lines 184-272)

The two stages run as goroutines joined on the `done` channel before the
call returns; the model serialises them (left stage first) and marks each
stage's `done <- true` with a `stageDone` trace event. The recursive
`e.Execute` call on a non-simple stage is an oracle parameter `exec`. -/

/-- The left-stage goroutine: a simple command is resolved **without**
variable substitution or builtin lookup and spawned with its output on the
pipe's write end, its status discarded; an unresolved name is silently
dropped ("command lost"); any other command is executed recursively, its
status likewise discarded. -/
def leftStage (exec : Command → World → Int × World) (left : Command) (w : World) : World :=
  match left with
  | Command.simple cmd =>
    match findCommand w cmd.name with
    | some p => pushEvent w (Event.spawn p cmd.args)
    | none => w
  | c => (exec c w).2

/-- The right-stage goroutine: a simple command naming a builtin saves
`os.Stdin`, points it at the pipe's read end, invokes the builtin on the
raw argument list, and restores `os.Stdin`; a non-builtin simple command is
resolved and spawned with its input on the read end (127 when unresolved);
any other command is executed recursively between the same save/restore of
`os.Stdin`. -/
def rightStage (cfg : Config) (exec : Command → World → Int × World) (right : Command)
    (rdr : Nat) (w : World) : Int × World :=
  match right with
  | Command.simple cmd =>
    match builtinsGet cfg.builtins cmd.name with
    | some b =>
      let w1 := { w with stdinH := rdr, trace := w.trace ++ [Event.setStdin rdr] }
      let w2 := pushEvent w1 (Event.builtinCall cmd.name cmd.args)
      (b cmd.args, { w2 with stdinH := w.stdinH, trace := w2.trace ++ [Event.setStdin w.stdinH] })
    | none =>
      match findCommand w cmd.name with
      | some p => (cfg.procExit p cmd.args, pushEvent w (Event.spawn p cmd.args))
      | none => (127, w)
  | c =>
    let w1 := { w with stdinH := rdr, trace := w.trace ++ [Event.setStdin rdr] }
    let r := exec c w1
    (r.1, { r.2 with stdinH := w.stdinH, trace := r.2.trace ++ [Event.setStdin w.stdinH] })

/-- `Executor.executePipeline`: allocate a pipe, run both stages, join, and
return the right-hand stage's status (`rightExitCode`); the left stage's
status is never read. -/
def executePipeline (cfg : Config) (exec : Command → World → Int × World)
    (left right : Command) (w : World) : Int × World :=
  let rdr := w.nextH
  let w0 := { w with nextH := w.nextH + 2 }
  let wL := pushEvent (leftStage exec left w0) (Event.stageDone true)
  let r := rightStage cfg exec right rdr wL
  (r.1, pushEvent r.2 (Event.stageDone false))

/-! ## Lists (`executeList`, `part_002` lines 286-310) -/

/-- `Executor.executeList`: run the commands left to right, carrying
`exitCode`; after the i-th command, when an i-th operator exists, `&&`
with a non-zero status or `||` with a zero status returns that status at
once; otherwise continue. The accumulator starts at 0. -/
def executeListGo (exec : Command → World → Int × World) :
    List Command → List String → Int → World → Int × World
  | [], _, code, w => (code, w)
  | c :: cs, ops, _, w =>
    let r := exec c w
    match ops with
    | [] => executeListGo exec cs [] r.1 r.2
    | op :: rest =>
      if op = "&&" then
        if r.1 ≠ 0 then r else executeListGo exec cs rest r.1 r.2
      else if op = "||" then
        if r.1 = 0 then r else executeListGo exec cs rest r.1 r.2
      else executeListGo exec cs rest r.1 r.2

/-- `Executor.executeList` as called (accumulator 0; an empty command list
yields status 0). -/
def executeList (exec : Command → World → Int × World)
    (cmds : List Command) (ops : List String) (w : World) : Int × World :=
  executeListGo exec cmds ops 0 w

/-- The spec's wording of list evaluation, written independently of the
loop shape of the source: evaluate left to right; after each element other
than the last, a following `&&` stops on a non-zero status and a following
`||` stops on a zero status; the result is the status of the last element
actually evaluated (0 for an empty list). -/
def executeListFromSpec (exec : Command → World → Int × World) :
    List Command → List String → World → Int × World
  | [], _, w => (0, w)
  | c :: cs, ops, w =>
    let r := exec c w
    match cs with
    | [] => r
    | _ :: _ =>
      match ops with
      | [] => executeListFromSpec exec cs [] r.2
      | op :: rest =>
        if (op = "&&" ∧ r.1 ≠ 0) ∨ (op = "||" ∧ r.1 = 0) then r
        else executeListFromSpec exec cs rest r.2

/-! ## `for` loops (`executeFor`, `part_002` lines 328-340) -/

/-- The world-level effect of `e.variables.Set` as `executeFor` uses it:
the returned error (read-only variable) is discarded, leaving the world
unchanged in that case. -/
def worldSetVar (w : World) (name value : String) : World :=
  match managerSet w.vars w.env name value with
  | Except.ok r => { w with vars := r.1, env := r.2 }
  | Except.error _ => w

/-- The value the store currently holds for a name (`none` when absent). -/
def varValue (w : World) (n : String) : Option String :=
  (lookupVar w.vars n).map fun v => v.value

/-- The loop of `Executor.executeFor`: for each value, call `Set` (error
ignored), then evaluate the body, keeping its status; a `bodyRun` trace
event marks each body evaluation. -/
def executeForGo (exec : Command → World → Int × World) (v : String) (body : Command) :
    List String → Int → World → Int × World
  | [], code, w => (code, w)
  | val :: vs, _, w =>
    let r := exec body (pushEvent (worldSetVar w v val) Event.bodyRun)
    executeForGo exec v body vs r.1 r.2

/-- `Executor.executeFor` as called (accumulator 0: an empty value list
yields status 0). -/
def executeFor (exec : Command → World → Int × World) (v : String)
    (values : List String) (body : Command) (w : World) : Int × World :=
  executeForGo exec v body values 0 w

/-- The spec's wording of `for` evaluation as a fold: bind the loop
variable (a read-only variable silently rejecting the binding) before each
body evaluation; the result is the final iteration's status, starting
from 0. -/
def executeForFromSpec (exec : Command → World → Int × World) (v : String)
    (values : List String) (body : Command) (w : World) : Int × World :=
  values.foldl (fun r val => exec body (pushEvent (worldSetVar r.2 v val) Event.bodyRun)) (0, w)

/-! ## Job manager (`internal/jobs/jobs.go`) -/

/-- The `JobState` enumeration of `jobs.go`. -/
inductive JobState where
  | running
  | stopped
  | done
  | killed
  deriving DecidableEq

/-- The per-job record the manager mutates (times are abstract ticks). -/
structure JobRec where
  state : JobState
  exitCode : Int
  finished : Option Nat
  deriving DecidableEq

/-- How the monitored process ended: a clean exit with a code, or a
signal-induced termination. -/
inductive WaitResult where
  | exited (code : Int)
  | signaled
  deriving DecidableEq

/-- `Manager.monitor` after `Cmd.Wait` returns: record the finish time and
then branch on the error. `Wait` returns no error exactly for a clean exit
with code 0 (state Done, exit code 0); any non-zero clean exit surfaces as
an `ExitError` carrying the code, and a signal-induced termination as an
`ExitError` whose `ExitStatus()` is -1 — both land in the error branch,
which sets state Killed. The current state is never consulted. -/
def monitorUpdate (j : JobRec) (res : WaitResult) (t : Nat) : JobRec :=
  match res with
  | WaitResult.exited code =>
    if code = 0 then { j with finished := some t, exitCode := 0, state := JobState.done }
    else { j with finished := some t, exitCode := code, state := JobState.killed }
  | WaitResult.signaled =>
    { j with finished := some t, exitCode := -1, state := JobState.killed }

/-- `Manager.Kill` on a job's record (`sigOk` abstracts success of the
TERM signal or its KILL fallback): only a Running or Stopped job may be
killed; on signalling success the job is marked Killed with a finish
time. -/
def killUpdate (j : JobRec) (sigOk : Bool) (t : Nat) : Except String JobRec :=
  if j.state = JobState.running ∨ j.state = JobState.stopped then
    if sigOk then Except.ok { j with state := JobState.killed, finished := some t }
    else Except.error "signal failed"
  else Except.error "job is not running"

/-- `Manager.Stop`: only a Running job may be stopped. -/
def stopUpdate (j : JobRec) (sigOk : Bool) : Except String JobRec :=
  if j.state = JobState.running then
    if sigOk then Except.ok { j with state := JobState.stopped }
    else Except.error "signal failed"
  else Except.error "job is not running"

/-- `Manager.Continue`: only a Stopped job may be resumed. -/
def continueUpdate (j : JobRec) (sigOk : Bool) : Except String JobRec :=
  if j.state = JobState.stopped then
    if sigOk then Except.ok { j with state := JobState.running }
    else Except.error "signal failed"
  else Except.error "job is not stopped"

/-! ## Shared lemmas -/

/-- Setting a variable makes it the one found under its name. -/
theorem lookupVar_setVarEntry (vars : List Variable) (n : String) (nv : Variable)
    (hn : nv.name = n) :
    lookupVar (setVarEntry vars n nv) n = some nv := by
  induction vars with
  | nil => simp [setVarEntry, lookupVar, hn]
  | cons v rest ih =>
    by_cases h : v.name = n
    · simp [setVarEntry, lookupVar, h, hn]
    · simp [setVarEntry, lookupVar, h, ih]

/-- Pushing a trace event leaves the variable store unchanged. -/
theorem pushEvent_vars (w : World) (e : Event) : (pushEvent w e).vars = w.vars := rfl

/-- `worldSetVar` never touches the trace. -/
theorem worldSetVar_trace (w : World) (n v : String) :
    (worldSetVar w n v).trace = w.trace := by
  unfold worldSetVar
  cases managerSet w.vars w.env n v <;> rfl

/-- `worldSetVar` never touches the stdin handle. -/
theorem worldSetVar_stdinH (w : World) (n v : String) :
    (worldSetVar w n v).stdinH = w.stdinH := by
  unfold worldSetVar
  cases managerSet w.vars w.env n v <;> rfl

/-- When the variable is absent or not read-only, `worldSetVar` installs a
fresh non-read-only entry holding the new value. -/
theorem worldSetVar_binds (w : World) (n v : String)
    (hw : lookupVar w.vars n = none ∨ ∃ e, lookupVar w.vars n = some e ∧ e.readOnly = false) :
    ∃ exp, lookupVar (worldSetVar w n v).vars n = some ⟨n, v, exp, false, false, []⟩ := by
  unfold worldSetVar managerSet
  rcases hw with h | ⟨e, h, hro⟩
  · rw [h]
    exact ⟨false, lookupVar_setVarEntry _ _ _ rfl⟩
  · rw [h]
    simp only [hro, Bool.false_eq_true, if_false]
    exact ⟨e.exported, lookupVar_setVarEntry _ _ _ rfl⟩

/-- The scanning loop of `findCommand` is exactly a first-match search over
the joined candidate paths. -/
theorem firstHit_eq_find (w : World) (name : String) (ds : List String) :
    firstHit w ds name = (ds.map (fun d => joinPath d name)).find? (fun p => statOk w p) := by
  induction ds with
  | nil => rfl
  | cons d rest ih =>
    by_cases h : statOk w (joinPath d name)
    · simp [firstHit, List.find?, h]
    · simp [firstHit, List.find?, h, ih]

/-- `os.Create` leaves the target with empty contents. -/
theorem fsFind_updateEntry_contents (fs : List (String × FileEntry)) (p s : String) :
    (fsFind (updateEntry fs p s) p).map (fun e => e.contents) = some s := by
  induction fs with
  | nil => simp [updateEntry, fsFind]
  | cons e rest ih =>
    by_cases h : e.1 = p
    · simp [updateEntry, fsFind, h]
    · simp [updateEntry, fsFind, h, ih]

/-- Append-opening an existing file leaves the filesystem unchanged. -/
theorem ensureEntry_of_isSome (fs : List (String × FileEntry)) (p : String)
    (h : (fsFind fs p).isSome) : ensureEntry fs p = fs := by
  induction fs with
  | nil => simp [fsFind] at h
  | cons e rest ih =>
    by_cases he : e.1 = p
    · simp [ensureEntry, he]
    · simp [fsFind, he] at h
      simp [ensureEntry, he, ih h]

/-- Unfolding of `replaceAllAux` at a cons subject with positive fuel. -/
theorem replaceAllAux_cons (pat rep : List Char) (f : Nat) (c : Char) (rest : List Char) :
    replaceAllAux pat rep (f + 1) (c :: rest) =
      if pat ≠ [] ∧ pat.isPrefixOf (c :: rest) then
        rep ++ replaceAllAux pat rep f (List.drop (pat.length - 1) rest)
      else c :: replaceAllAux pat rep f rest := rfl

/-- `replaceAllAux` fixes the empty subject. -/
theorem replaceAllAux_nil (pat rep : List Char) (f : Nat) :
    replaceAllAux pat rep f [] = [] := by
  cases f <;> rfl

/-- A pattern is a prefix of itself followed by anything. -/
theorem isPrefixOf_self_append (p q : List Char) : p.isPrefixOf (p ++ q) = true := by
  induction p with
  | nil => simp [List.isPrefixOf]
  | cons a p' ih => simp [List.isPrefixOf, ih]

/-- Differing heads rule out a prefix match. -/
theorem isPrefixOf_cons_ne (a b : Char) (p s : List Char) (h : a ≠ b) :
    (a :: p).isPrefixOf (b :: s) = false := by
  simp [List.isPrefixOf, h]

/-- The fuel of `replaceAllAux` is irrelevant once it covers the subject's
length. -/
theorem replaceAllAux_fuel_eq (pat rep : List Char) :
    ∀ (f1 : Nat) (s : List Char) (f2 : Nat), s.length ≤ f1 → s.length ≤ f2 →
      replaceAllAux pat rep f1 s = replaceAllAux pat rep f2 s := by
  intro f1
  induction f1 with
  | zero =>
    intro s f2 h1 _
    have hs : s = [] := List.eq_nil_of_length_eq_zero (Nat.le_zero.mp h1)
    subst hs
    rw [replaceAllAux_nil, replaceAllAux_nil]
  | succ g ih =>
    intro s f2 h1 h2
    cases s with
    | nil => rw [replaceAllAux_nil, replaceAllAux_nil]
    | cons c rest =>
      cases f2 with
      | zero => simp at h2
      | succ h =>
        rw [replaceAllAux_cons, replaceAllAux_cons]
        by_cases hcnd : pat ≠ [] ∧ pat.isPrefixOf (c :: rest)
        · rw [if_pos hcnd, if_pos hcnd]
          have hlen : (List.drop (pat.length - 1) rest).length ≤ rest.length := by
            rw [List.length_drop]; omega
          have hr1 : rest.length ≤ g := by simp at h1; omega
          have hr2 : rest.length ≤ h := by simp at h2; omega
          rw [ih (List.drop (pat.length - 1) rest) h (le_trans hlen hr1) (le_trans hlen hr2)]
        · rw [if_neg hcnd, if_neg hcnd]
          have hr1 : rest.length ≤ g := by simp at h1; omega
          have hr2 : rest.length ≤ h := by simp at h2; omega
          rw [ih rest h hr1 hr2]

/-- A subject without the pattern's head character contains no
occurrence. -/
theorem hasOcc_head_absent (hc : Char) (p : List Char) :
    ∀ (s : List Char), hc ∉ s → hasOcc (hc :: p) s = false := by
  intro s
  induction s with
  | nil => intro _; rfl
  | cons c rest ih =>
    intro h
    have hne : hc ≠ c := fun he => h (he ▸ List.mem_cons_self c rest)
    simp [hasOcc, isPrefixOf_cons_ne hc c p rest hne,
      ih (fun hm => h (List.mem_cons_of_mem c hm))]

/-- Occurrence scanning skips a leading block without the pattern's head
character. -/
theorem hasOcc_append_skip (hc : Char) (p : List Char) :
    ∀ (x r : List Char), hc ∉ x → hasOcc (hc :: p) (x ++ r) = hasOcc (hc :: p) r := by
  intro x
  induction x with
  | nil => intro r _; rfl
  | cons c x' ih =>
    intro r h
    have hne : hc ≠ c := fun he => h (he ▸ List.mem_cons_self c x')
    simp [hasOcc, isPrefixOf_cons_ne hc c p _ hne,
      ih r (fun hm => h (List.mem_cons_of_mem c hm))]

/-- A subject with no occurrence of the pattern is left unchanged by the
replacement scan. -/
theorem replaceAllAux_no_occ (pat rep : List Char) :
    ∀ (f : Nat) (s : List Char), s.length ≤ f → hasOcc pat s = false →
      replaceAllAux pat rep f s = s := by
  intro f
  induction f with
  | zero =>
    intro s h1 _
    have hs : s = [] := List.eq_nil_of_length_eq_zero (Nat.le_zero.mp h1)
    subst hs
    rw [replaceAllAux_nil]
  | succ g ih =>
    intro s h1 hno
    cases s with
    | nil => rw [replaceAllAux_nil]
    | cons c rest =>
      simp only [hasOcc, Bool.or_eq_false_iff] at hno
      obtain ⟨hpre, hrest⟩ := hno
      rw [replaceAllAux_cons, if_neg (by simp [hpre])]
      have hr : rest.length ≤ g := by simp at h1; omega
      rw [ih rest hr hrest]

/-- `strings.ReplaceAll` is the identity on a subject with no occurrence
of the pattern. -/
theorem replaceAllStr_no_occ (s pat rep : String) (h : hasOccStr pat s = false) :
    replaceAllStr s pat rep = s := by
  unfold replaceAllStr replaceAllL
  rw [replaceAllAux_no_occ pat.toList rep.toList s.toList.length s.toList le_rfl h]
  rfl

/-- `strings.ReplaceAll` is the identity on a subject lacking the
pattern's head character. -/
theorem replaceAllStr_head_absent (s pat rep : String) (hc : Char) (p : List Char)
    (hp : pat.toList = hc :: p) (h : hc ∉ s.toList) :
    replaceAllStr s pat rep = s := by
  apply replaceAllStr_no_occ
  unfold hasOccStr
  rw [hp]
  exact hasOcc_head_absent hc p s.toList h

/-- Replacement at the leftmost occurrence: a block without the pattern's
head character, then the pattern itself, then the rest. -/
theorem replaceAllL_step (hc : Char) (p rep b : List Char) :
    ∀ (a : List Char), hc ∉ a →
      replaceAllL (hc :: p) rep (a ++ (hc :: p) ++ b)
        = a ++ rep ++ replaceAllL (hc :: p) rep b := by
  intro a
  induction a with
  | nil =>
    intro _
    simp only [List.nil_append]
    show replaceAllAux (hc :: p) rep ((hc :: p) ++ b).length ((hc :: p) ++ b)
      = rep ++ replaceAllL (hc :: p) rep b
    rw [show ((hc :: p) ++ b) = hc :: (p ++ b) from rfl]
    rw [show (hc :: (p ++ b)).length = (p ++ b).length + 1 from rfl]
    rw [replaceAllAux_cons]
    rw [if_pos ⟨List.cons_ne_nil hc p, by
      rw [show (hc :: (p ++ b)) = (hc :: p) ++ b from rfl]
      exact isPrefixOf_self_append (hc :: p) b⟩]
    congr 1
    rw [show (hc :: p).length - 1 = p.length from by simp]
    rw [List.drop_left p b]
    exact replaceAllAux_fuel_eq (hc :: p) rep (p ++ b).length b b.length
      (by simp) le_rfl
  | cons c a' ih =>
    intro h
    have hne : hc ≠ c := fun he => h (he ▸ List.mem_cons_self c a')
    have hmem : hc ∉ a' := fun hm => h (List.mem_cons_of_mem c hm)
    show replaceAllAux (hc :: p) rep ((c :: a') ++ (hc :: p) ++ b).length ((c :: a') ++ (hc :: p) ++ b)
      = (c :: a') ++ rep ++ replaceAllL (hc :: p) rep b
    rw [show ((c :: a') ++ (hc :: p) ++ b) = c :: (a' ++ (hc :: p) ++ b) from rfl]
    rw [show (c :: (a' ++ (hc :: p) ++ b)).length = (a' ++ (hc :: p) ++ b).length + 1 from rfl]
    rw [replaceAllAux_cons]
    rw [if_neg (by simp [isPrefixOf_cons_ne hc c p _ hne])]
    have hrec := ih hmem
    unfold replaceAllL at hrec
    rw [hrec]
    rfl

/-- ReplaceAll maps a pattern-joined text to the replacement-joined text
when the pieces lack the pattern's head character. -/
theorem replaceAllL_joinWithL (hc : Char) (p rep : List Char) :
    ∀ (xs : List (List Char)), (∀ x ∈ xs, hc ∉ x) →
      replaceAllL (hc :: p) rep (joinWithL (hc :: p) xs) = joinWithL rep xs := by
  intro xs
  induction xs with
  | nil => intro _; rfl
  | cons x xs' ih =>
    intro hxs
    cases xs' with
    | nil =>
      have hx : hc ∉ x := hxs x (List.mem_cons_self x [])
      show replaceAllL (hc :: p) rep x = x
      unfold replaceAllL
      exact replaceAllAux_no_occ _ _ _ _ le_rfl (hasOcc_head_absent hc p x hx)
    | cons x2 xs2 =>
      have hx : hc ∉ x := hxs x (List.mem_cons_self x (x2 :: xs2))
      have hrest : ∀ y ∈ x2 :: xs2, hc ∉ y := fun y hy => hxs y (List.mem_cons_of_mem x hy)
      show replaceAllL (hc :: p) rep (x ++ (hc :: p) ++ joinWithL (hc :: p) (x2 :: xs2))
        = x ++ rep ++ joinWithL rep (x2 :: xs2)
      rw [replaceAllL_step hc p rep (joinWithL (hc :: p) (x2 :: xs2)) x hx, ih hrest]

/-- A character absent from the separator and every piece is absent from
the joined text. -/
theorem not_mem_joinWithL (c : Char) (sep : List Char) :
    ∀ (xs : List (List Char)), c ∉ sep → (∀ x ∈ xs, c ∉ x) → c ∉ joinWithL sep xs := by
  intro xs
  induction xs with
  | nil => intro _ _; simp [joinWithL]
  | cons x xs' ih =>
    intro hsep hxs
    cases xs' with
    | nil => exact hxs x (List.mem_cons_self x [])
    | cons x2 xs2 =>
      intro hmem
      rw [show joinWithL sep (x :: x2 :: xs2) = x ++ sep ++ joinWithL sep (x2 :: xs2) from rfl]
        at hmem
      simp only [List.mem_append] at hmem
      rcases hmem with (hx | hs) | hr
      · exact hxs x (List.mem_cons_self x _) hx
      · exact hsep hs
      · exact ih hsep (fun y hy => hxs y (List.mem_cons_of_mem x hy)) hr

/-- No occurrence of `hc :: p0 :: p'` in a text joined with the separator
`hc :: q0 :: q'` when `p0 ≠ q0`, the separator tail lacks `hc`, and the
pieces lack `hc`. -/
theorem hasOcc_joinWithL_ne (hc p0 q0 : Char) (p' q' : List Char) :
    ∀ (xs : List (List Char)), p0 ≠ q0 → hc ∉ q0 :: q' → (∀ x ∈ xs, hc ∉ x) →
      hasOcc (hc :: p0 :: p') (joinWithL (hc :: q0 :: q') xs) = false := by
  intro xs
  induction xs with
  | nil => intro _ _ _; rfl
  | cons x xs' ih =>
    intro hpq hq hxs
    cases xs' with
    | nil =>
      have hx : hc ∉ x := hxs x (List.mem_cons_self x [])
      exact hasOcc_head_absent hc (p0 :: p') x hx
    | cons x2 xs2 =>
      have hx : hc ∉ x := hxs x (List.mem_cons_self x _)
      have hrest : ∀ y ∈ x2 :: xs2, hc ∉ y := fun y hy => hxs y (List.mem_cons_of_mem x hy)
      show hasOcc (hc :: p0 :: p')
          (x ++ (hc :: q0 :: q') ++ joinWithL (hc :: q0 :: q') (x2 :: xs2)) = false
      rw [List.append_assoc]
      rw [hasOcc_append_skip hc (p0 :: p') x _ hx]
      have hstep : hasOcc (hc :: p0 :: p')
          ((hc :: q0 :: q') ++ joinWithL (hc :: q0 :: q') (x2 :: xs2))
          = ((hc :: p0 :: p').isPrefixOf
              ((hc :: q0 :: q') ++ joinWithL (hc :: q0 :: q') (x2 :: xs2)) ||
            hasOcc (hc :: p0 :: p')
              ((q0 :: q') ++ joinWithL (hc :: q0 :: q') (x2 :: xs2))) := rfl
      rw [hstep]
      rw [hasOcc_append_skip hc (p0 :: p') (q0 :: q') _ hq]
      rw [ih hpq hq hrest]
      have hpre : (hc :: p0 :: p').isPrefixOf
          ((hc :: q0 :: q') ++ joinWithL (hc :: q0 :: q') (x2 :: xs2)) = false := by
        have h1 : (hc :: p0 :: p').isPrefixOf
            ((hc :: q0 :: q') ++ joinWithL (hc :: q0 :: q') (x2 :: xs2))
            = ((hc == hc) &&
              (p0 :: p').isPrefixOf
                (q0 :: (q' ++ joinWithL (hc :: q0 :: q') (x2 :: xs2)))) := rfl
        rw [h1, isPrefixOf_cons_ne p0 q0 p' _ hpq]
        simp
      rw [hpre]
      rfl

/-- `String.toList` distributes over append. -/
theorem toList_append (a b : String) : (a ++ b).toList = a.toList ++ b.toList :=
  String.data_append a b

/-- Rebuilding a string from its characters is the identity. -/
theorem mk_toList (s : String) : String.mk s.toList = s := rfl

/-- `joinWith` and `joinWithL` agree through `toList`. -/
theorem toList_joinWith (sep : String) :
    ∀ (xs : List String),
      (joinWith sep xs).toList = joinWithL sep.toList (xs.map String.toList) := by
  intro xs
  induction xs with
  | nil => rfl
  | cons x xs' ih =>
    cases xs' with
    | nil => rfl
    | cons x2 xs2 =>
      show (x ++ sep ++ joinWith sep (x2 :: xs2)).toList
        = x.toList ++ sep.toList ++ joinWithL sep.toList ((x2 :: xs2).map String.toList)
      rw [toList_append, toList_append, ih]

/-- Pieces of mapped strings inherit a character-absence condition. -/
theorem map_toList_no_char (c : Char) (xs : List String) (h : ∀ x ∈ xs, c ∉ x.toList) :
    ∀ l ∈ xs.map String.toList, c ∉ l := by
  intro l hl
  rcases List.mem_map.mp hl with ⟨y, hy, rfl⟩
  exact h y hy

/-- String-level join replacement: every copy of the pattern in the joined
text is replaced when the pieces lack the pattern's head character. -/
theorem replaceAllStr_joinWith (pat rep : String) (hc : Char) (p : List Char)
    (hp : pat.toList = hc :: p) (xs : List String) (hxs : ∀ x ∈ xs, hc ∉ x.toList) :
    replaceAllStr (joinWith pat xs) pat rep = joinWith rep xs := by
  unfold replaceAllStr
  rw [toList_joinWith, hp]
  rw [replaceAllL_joinWithL hc p rep.toList (xs.map String.toList) (map_toList_no_char hc xs hxs)]
  rw [← toList_joinWith rep xs]
  rfl

/-- The pattern `$NAME` as a character list. -/
theorem toList_dollar_append (n : String) : ("$" ++ n).toList = '$' :: n.toList := by
  rw [toList_append]
  rfl

/-- The pattern `$\x7bNAME\x7d` as a character list. -/
theorem toList_brace_pattern (n : String) :
    ("$\x7b" ++ n ++ "\x7d").toList = '$' :: '\x7b' :: (n.toList ++ ['\x7d']) := by
  rw [toList_append, toList_append]
  simp

/-- A non-empty string has a first character. -/
theorem toList_ne_nil (n : String) (hn : n ≠ "") : ∃ n0 ntail, n.toList = n0 :: ntail := by
  cases hnt : n.toList with
  | nil =>
    exfalso
    apply hn
    rw [← mk_toList n, hnt]
  | cons a b => exact ⟨a, b, rfl⟩

/-- The substitution fold leaves a text unchanged when no stored
variable's patterns occur in it. -/
theorem foldl_subst_fixed :
    ∀ (vs : List Variable) (t : String),
      (∀ u ∈ vs, hasOccStr ("$" ++ u.name) t = false ∧
        hasOccStr ("$\x7b" ++ u.name ++ "\x7d") t = false) →
      vs.foldl (fun acc v =>
        replaceAllStr (replaceAllStr acc ("$" ++ v.name) v.value)
          ("$\x7b" ++ v.name ++ "\x7d") v.value) t = t := by
  intro vs
  induction vs with
  | nil => intro t _; rfl
  | cons u vs' ih =>
    intro t h
    obtain ⟨h1, h2⟩ := h u (List.mem_cons_self u vs')
    simp only [List.foldl_cons]
    rw [replaceAllStr_no_occ _ _ _ h1, replaceAllStr_no_occ _ _ _ h2]
    exact ih t (fun y hy => h y (List.mem_cons_of_mem u hy))

/-- Unfolding of `SubstituteVariables` into its two phases. -/
theorem substituteVariables_unfold (vars : List Variable) (pid : Nat) (t : String) :
    substituteVariables vars pid t =
      replaceAllStr (replaceAllStr (vars.foldl (fun acc v =>
        replaceAllStr (replaceAllStr acc ("$" ++ v.name) v.value)
          ("$\x7b" ++ v.name ++ "\x7d") v.value) t) "$$" (toString pid)) "$?" "0" := rfl

/-- The left pipeline stage only appends to the trace (given that the
recursive evaluator does). -/
theorem leftStage_trace_extends (exec : Command → World → Int × World) (left : Command)
    (w : World) (hex : ∀ c w', ∃ t, ((exec c w').2).trace = w'.trace ++ t) :
    ∃ t, (leftStage exec left w).trace = w.trace ++ t := by
  cases left with
  | simple cmd =>
    cases h : findCommand w cmd.name with
    | some p => exact ⟨[Event.spawn p cmd.args], by simp [leftStage, h, pushEvent]⟩
    | none => exact ⟨[], by simp [leftStage, h]⟩
  | pipeline l r => exact hex _ _
  | background c => exact hex _ _
  | list cmds ops => exact hex _ _
  | ifc c t e => exact hex _ _
  | forc v vs b => exact hex _ _
  | whilec c b => exact hex _ _
  | casec word cases => exact hex _ _
  | funcdef n b => exact hex _ _
  | subshell c => exact hex _ _
  | group cmds => exact hex _ _

/-- The right pipeline stage only appends to the trace (given that the
recursive evaluator does). -/
theorem rightStage_trace_extends (cfg : Config) (exec : Command → World → Int × World)
    (right : Command) (rdr : Nat) (w : World)
    (hex : ∀ c w', ∃ t, ((exec c w').2).trace = w'.trace ++ t) :
    ∃ t, ((rightStage cfg exec right rdr w).2).trace = w.trace ++ t := by
  cases right with
  | simple cmd =>
    cases hb : builtinsGet cfg.builtins cmd.name with
    | some b =>
      exact ⟨[Event.setStdin rdr, Event.builtinCall cmd.name cmd.args, Event.setStdin w.stdinH],
        by simp [rightStage, hb, pushEvent]⟩
    | none =>
      cases h : findCommand w cmd.name with
      | some p => exact ⟨[Event.spawn p cmd.args], by simp [rightStage, hb, h, pushEvent]⟩
      | none => exact ⟨[], by simp [rightStage, hb, h]⟩
  | pipeline l r =>
    obtain ⟨t, ht⟩ := hex (Command.pipeline l r)
      { w with stdinH := rdr, trace := w.trace ++ [Event.setStdin rdr] }
    exact ⟨[Event.setStdin rdr] ++ t ++ [Event.setStdin w.stdinH], by simp [rightStage, ht]⟩
  | background c =>
    obtain ⟨t, ht⟩ := hex (Command.background c)
      { w with stdinH := rdr, trace := w.trace ++ [Event.setStdin rdr] }
    exact ⟨[Event.setStdin rdr] ++ t ++ [Event.setStdin w.stdinH], by simp [rightStage, ht]⟩
  | list cmds ops =>
    obtain ⟨t, ht⟩ := hex (Command.list cmds ops)
      { w with stdinH := rdr, trace := w.trace ++ [Event.setStdin rdr] }
    exact ⟨[Event.setStdin rdr] ++ t ++ [Event.setStdin w.stdinH], by simp [rightStage, ht]⟩
  | ifc c tb eb =>
    obtain ⟨t, ht⟩ := hex (Command.ifc c tb eb)
      { w with stdinH := rdr, trace := w.trace ++ [Event.setStdin rdr] }
    exact ⟨[Event.setStdin rdr] ++ t ++ [Event.setStdin w.stdinH], by simp [rightStage, ht]⟩
  | forc v vs b =>
    obtain ⟨t, ht⟩ := hex (Command.forc v vs b)
      { w with stdinH := rdr, trace := w.trace ++ [Event.setStdin rdr] }
    exact ⟨[Event.setStdin rdr] ++ t ++ [Event.setStdin w.stdinH], by simp [rightStage, ht]⟩
  | whilec c b =>
    obtain ⟨t, ht⟩ := hex (Command.whilec c b)
      { w with stdinH := rdr, trace := w.trace ++ [Event.setStdin rdr] }
    exact ⟨[Event.setStdin rdr] ++ t ++ [Event.setStdin w.stdinH], by simp [rightStage, ht]⟩
  | casec word cases =>
    obtain ⟨t, ht⟩ := hex (Command.casec word cases)
      { w with stdinH := rdr, trace := w.trace ++ [Event.setStdin rdr] }
    exact ⟨[Event.setStdin rdr] ++ t ++ [Event.setStdin w.stdinH], by simp [rightStage, ht]⟩
  | funcdef n b =>
    obtain ⟨t, ht⟩ := hex (Command.funcdef n b)
      { w with stdinH := rdr, trace := w.trace ++ [Event.setStdin rdr] }
    exact ⟨[Event.setStdin rdr] ++ t ++ [Event.setStdin w.stdinH], by simp [rightStage, ht]⟩
  | subshell c =>
    obtain ⟨t, ht⟩ := hex (Command.subshell c)
      { w with stdinH := rdr, trace := w.trace ++ [Event.setStdin rdr] }
    exact ⟨[Event.setStdin rdr] ++ t ++ [Event.setStdin w.stdinH], by simp [rightStage, ht]⟩
  | group cmds =>
    obtain ⟨t, ht⟩ := hex (Command.group cmds)
      { w with stdinH := rdr, trace := w.trace ++ [Event.setStdin rdr] }
    exact ⟨[Event.setStdin rdr] ++ t ++ [Event.setStdin w.stdinH], by simp [rightStage, ht]⟩

/-! ## Claim theorems -/

/-- C1: a simple command whose substituted name matches a registered
builtin invokes that builtin on the substituted argument list and returns
its status directly, and no external process is spawned: the world gains
exactly the builtin-invocation event, so the spawn count is unchanged.
(The executor returns 0 before the lookup for an empty command name, and no
builtin is registered under the empty name, hence the `cmd.name ≠ ""`
side condition.) -/
theorem executeSimple_builtin_dispatch (cfg : Config) (cmd : SimpleCommand) (w : World)
    (b : List String → Int) (hname : cmd.name ≠ "")
    (hb : builtinsGet cfg.builtins (substituteVariables w.vars cfg.pid cmd.name) = some b) :
    executeSimple cfg cmd w =
      (b (cmd.args.map (substituteVariables w.vars cfg.pid)),
       pushEvent w (Event.builtinCall (substituteVariables w.vars cfg.pid cmd.name)
         (cmd.args.map (substituteVariables w.vars cfg.pid)))) ∧
    spawnCount ((executeSimple cfg cmd w).2).trace = spawnCount w.trace := by
  constructor
  · simp [executeSimple, hname, hb]
  · simp [executeSimple, hname, hb, pushEvent, spawnCount, List.countP_append]

/-- C1 witness: the builtin "echo" registered to return 5 is dispatched
with its argument list and no spawn event appears. -/
theorem executeSimple_builtin_dispatch_witness :
    executeSimple ⟨7, [("echo", fun _ => 5)], fun _ _ => 1⟩ ⟨"echo", ["a"], []⟩
        ⟨[], [], [], [], 0, 0, []⟩ =
      (5, pushEvent ⟨[], [], [], [], 0, 0, []⟩ (Event.builtinCall "echo" ["a"])) ∧
    spawnCount ((executeSimple ⟨7, [("echo", fun _ => 5)], fun _ _ => 1⟩ ⟨"echo", ["a"], []⟩
        ⟨[], [], [], [], 0, 0, []⟩).2).trace = spawnCount ([] : List Event) :=
  executeSimple_builtin_dispatch ⟨7, [("echo", fun _ => 5)], fun _ _ => 1⟩ ⟨"echo", ["a"], []⟩
    ⟨[], [], [], [], 0, 0, []⟩ (fun _ => 5) (by decide) rfl

/-- C2 (amended): for a name without a path separator, resolution returns
the joined candidate of the first `PATH` directory (in order) whose
candidate merely exists per `os.Stat` — the executable bit is never
consulted; when no directory matches, execution returns 127 with a
"command not found" report and the trace gains no spawn event. -/
theorem findCommand_first_existing (w : World) (name : String) (cfg : Config)
    (args : List String) (rds : List Redirect) (hs : containsSlash name = false) :
    findCommand w name
        = ((searchDirs w).map (fun d => joinPath d name)).find? (fun p => statOk w p) ∧
    (findCommand w name = none →
      executeExternal cfg name args rds w =
        (127, pushEvent w (Event.report ("gosh: " ++ name ++ ": command not found")))) := by
  constructor
  · simp [findCommand, hs, firstHit_eq_find]
  · intro h
    simp [executeExternal, h]

/-- C2 witness: a concrete world where "x" resolves in the sole `PATH`
directory. -/
theorem findCommand_first_existing_witness :
    findCommand ⟨[⟨"PATH", "/b", false, false, false, []⟩], [], [("/b/x", ⟨"", true⟩)],
          [], 0, 0, []⟩ "x"
        = ((searchDirs ⟨[⟨"PATH", "/b", false, false, false, []⟩], [], [("/b/x", ⟨"", true⟩)],
          [], 0, 0, []⟩).map (fun d => joinPath d "x")).find?
            (fun p => statOk ⟨[⟨"PATH", "/b", false, false, false, []⟩], [],
              [("/b/x", ⟨"", true⟩)], [], 0, 0, []⟩ p) ∧
    (findCommand ⟨[⟨"PATH", "/b", false, false, false, []⟩], [], [("/b/x", ⟨"", true⟩)],
          [], 0, 0, []⟩ "x" = none →
      executeExternal ⟨1, [], fun _ _ => 0⟩ "x" [] []
          ⟨[⟨"PATH", "/b", false, false, false, []⟩], [], [("/b/x", ⟨"", true⟩)], [], 0, 0, []⟩ =
        (127, pushEvent ⟨[⟨"PATH", "/b", false, false, false, []⟩], [], [("/b/x", ⟨"", true⟩)],
          [], 0, 0, []⟩ (Event.report ("gosh: " ++ "x" ++ ": command not found")))) :=
  findCommand_first_existing _ "x" _ [] [] (by decide)

/-- C2 (counterexample): with `PATH` "/a:/b", an existing non-executable
"/a/x" and an existing executable "/b/x", resolution returns "/a/x" — not
the path in the first directory containing an executable match, which is
"/b/x". -/
theorem findCommand_ignores_executable_bit :
    findCommand ⟨[⟨"PATH", "/a:/b", false, false, false, []⟩], [],
        [("/a/x", ⟨"", false⟩), ("/b/x", ⟨"", true⟩)], [], 0, 0, []⟩ "x" = some "/a/x" ∧
    fsFind [("/a/x", (⟨"", false⟩ : FileEntry)), ("/b/x", ⟨"", true⟩)] "/a/x"
        = some ⟨"", false⟩ ∧
    fsFind [("/a/x", (⟨"", false⟩ : FileEntry)), ("/b/x", ⟨"", true⟩)] "/b/x"
        = some ⟨"", true⟩ ∧
    searchDirs ⟨[⟨"PATH", "/a:/b", false, false, false, []⟩], [],
        [("/a/x", ⟨"", false⟩), ("/b/x", ⟨"", true⟩)], [], 0, 0, []⟩ = ["/a", "/b"] ∧
    ("/a/x" : String) ≠ "/b/x" := by decide

/-- C3: pipeline evaluation joins both stages before returning (both
completion events are in the final trace) and the returned status is the
right-hand stage's status computed by `rightStage` — the left stage
(`leftStage`) produces no status at all in the model, exactly as the code
discards it, so a left-stage failure cannot be reflected. The hypothesis
states that the recursive evaluator only appends to the trace. -/
theorem executePipeline_status_runs_both (cfg : Config)
    (exec : Command → World → Int × World) (left right : Command) (w : World)
    (hex : ∀ c w', ∃ t, ((exec c w').2).trace = w'.trace ++ t) :
    (executePipeline cfg exec left right w).1
      = (rightStage cfg exec right w.nextH
          (pushEvent (leftStage exec left { w with nextH := w.nextH + 2 })
            (Event.stageDone true))).1 ∧
    Event.stageDone true ∈ ((executePipeline cfg exec left right w).2).trace ∧
    Event.stageDone false ∈ ((executePipeline cfg exec left right w).2).trace := by
  refine ⟨rfl, ?_, ?_⟩
  · obtain ⟨t, ht⟩ := rightStage_trace_extends cfg exec right w.nextH
      (pushEvent (leftStage exec left { w with nextH := w.nextH + 2 }) (Event.stageDone true)) hex
    simp [executePipeline, pushEvent] at ht ⊢
    rw [ht]
    simp [pushEvent]
  · simp [executePipeline, pushEvent]

/-- C3 witness: a concrete pipeline of two unresolved simple commands. -/
theorem executePipeline_status_runs_both_witness :
    (executePipeline ⟨1, [], fun _ _ => 0⟩ (fun _ p => (0, p))
        (Command.simple ⟨"x", [], []⟩) (Command.simple ⟨"y", [], []⟩)
        ⟨[], [], [], [], 0, 0, []⟩).1
      = (rightStage ⟨1, [], fun _ _ => 0⟩ (fun _ p => (0, p)) (Command.simple ⟨"y", [], []⟩)
          (⟨[], [], [], [], 0, 0, []⟩ : World).nextH
          (pushEvent (leftStage (fun _ p => (0, p)) (Command.simple ⟨"x", [], []⟩)
            { (⟨[], [], [], [], 0, 0, []⟩ : World) with
                nextH := (⟨[], [], [], [], 0, 0, []⟩ : World).nextH + 2 })
            (Event.stageDone true))).1 ∧
    Event.stageDone true ∈ ((executePipeline ⟨1, [], fun _ _ => 0⟩ (fun _ p => (0, p))
        (Command.simple ⟨"x", [], []⟩) (Command.simple ⟨"y", [], []⟩)
        ⟨[], [], [], [], 0, 0, []⟩).2).trace ∧
    Event.stageDone false ∈ ((executePipeline ⟨1, [], fun _ _ => 0⟩ (fun _ p => (0, p))
        (Command.simple ⟨"x", [], []⟩) (Command.simple ⟨"y", [], []⟩)
        ⟨[], [], [], [], 0, 0, []⟩).2).trace :=
  executePipeline_status_runs_both _ _ _ _ _ (fun c w' => ⟨[], by simp⟩)

/-- C4 (amended): when the right-hand pipeline stage is a simple command
naming a builtin, its input is bound to the pipe's read end by temporarily
mutating the process-wide `os.Stdin` binding — set to the read end before
the invocation and restored right after it — and the builtin itself
receives only the raw argument list, with no explicit input handle. -/
theorem executePipeline_builtin_stdin_swap (cfg : Config)
    (exec : Command → World → Int × World) (left : Command) (w : World)
    (cmd : SimpleCommand) (b : List String → Int) (wL : World)
    (hb : builtinsGet cfg.builtins cmd.name = some b)
    (hwL : wL = pushEvent (leftStage exec left { w with nextH := w.nextH + 2 })
      (Event.stageDone true)) :
    executePipeline cfg exec left (Command.simple cmd) w =
      (b cmd.args,
       { wL with trace := wL.trace ++
           [Event.setStdin w.nextH, Event.builtinCall cmd.name cmd.args,
            Event.setStdin wL.stdinH, Event.stageDone false] }) := by
  subst hwL
  simp [executePipeline, rightStage, hb, pushEvent]

/-- C4 witness: a concrete pipeline whose right stage is the builtin
"cat". -/
theorem executePipeline_builtin_stdin_swap_witness :
    executePipeline ⟨1, [("cat", fun _ => 0)], fun _ _ => 0⟩ (fun _ p => (0, p))
        (Command.simple ⟨"x", [], []⟩) (Command.simple ⟨"cat", [], []⟩)
        ⟨[], [], [], [], 0, 10, []⟩ =
      (0,
       { (pushEvent (leftStage (fun _ p => (0, p)) (Command.simple ⟨"x", [], []⟩)
            { (⟨[], [], [], [], 0, 10, []⟩ : World) with
                nextH := (⟨[], [], [], [], 0, 10, []⟩ : World).nextH + 2 })
            (Event.stageDone true)) with
          trace := (pushEvent (leftStage (fun _ p => (0, p)) (Command.simple ⟨"x", [], []⟩)
            { (⟨[], [], [], [], 0, 10, []⟩ : World) with
                nextH := (⟨[], [], [], [], 0, 10, []⟩ : World).nextH + 2 })
            (Event.stageDone true)).trace ++
            [Event.setStdin 10, Event.builtinCall "cat" [],
             Event.setStdin (pushEvent (leftStage (fun _ p => (0, p))
               (Command.simple ⟨"x", [], []⟩)
               { (⟨[], [], [], [], 0, 10, []⟩ : World) with
                   nextH := (⟨[], [], [], [], 0, 10, []⟩ : World).nextH + 2 })
               (Event.stageDone true)).stdinH, Event.stageDone false] }) :=
  executePipeline_builtin_stdin_swap ⟨1, [("cat", fun _ => 0)], fun _ _ => 0⟩ (fun _ p => (0, p))
    (Command.simple ⟨"x", [], []⟩) ⟨[], [], [], [], 0, 10, []⟩ ⟨"cat", [], []⟩ (fun _ => 0)
    (pushEvent (leftStage (fun _ p => (0, p)) (Command.simple ⟨"x", [], []⟩)
      { (⟨[], [], [], [], 0, 10, []⟩ : World) with
          nextH := (⟨[], [], [], [], 0, 10, []⟩ : World).nextH + 2 })
      (Event.stageDone true)) rfl rfl

/-- C4 (counterexample): in a concrete pipeline whose right stage is the
builtin "cat", evaluation emits a `setStdin` event for the pipe's read
end — the process-wide "current input" reference (`os.Stdin`) is mutated
during the pipeline's evaluation, contrary to the claim that the input is
passed as an explicit handle and no such mutation happens. -/
theorem executePipeline_builtin_mutates_stdin :
    Event.setStdin 10 ∈ ((executePipeline ⟨1, [("cat", fun _ => 0)], fun _ _ => 0⟩
        (fun _ p => (0, p)) (Command.simple ⟨"x", [], []⟩) (Command.simple ⟨"cat", [], []⟩)
        ⟨[], [], [], [], 0, 10, []⟩).2).trace ∧
    (⟨[], [], [], [], 0, 10, []⟩ : World).nextH = 10 := by decide

/-- C5 (amended): for the redirect list `> a` then `>> a`, the later
redirect wins for the stream binding — the command's output ends up bound
to `a` in append mode — but the earlier `>` has already truncated `a` at
open time, so the file's prior contents are destroyed during setup; and
for any redirect list whose setup fails, the command aborts with status 1
plus a report and the trace gains no spawn event (the process is never
launched). -/
theorem setupRedirects_append_wins_and_failure_aborts
    (w : World) (a : String) (cfg : Config) (name : String) (args : List String)
    (rds : List Redirect) (msg p : String) (w2 w' : World)
    (ha : a ∉ w.badPaths)
    (hfind : findCommand w2 name = some p)
    (herr : setupRedirects rds w2 emptyBindings = (Except.error msg, w')) :
    setupRedirects [⟨RedirectType.output, 1, a, ""⟩, ⟨RedirectType.append, 1, a, ""⟩] w
        emptyBindings
      = (Except.ok ⟨none, some (a, true), none⟩, { w with fs := updateEntry w.fs a "" }) ∧
    (fsFind (updateEntry w.fs a "") a).map (fun e => e.contents) = some "" ∧
    executeExternal cfg name args rds w2 = (1, pushEvent w' (Event.report ("gosh: " ++ msg))) := by
  refine ⟨?_, fsFind_updateEntry_contents _ _ _, ?_⟩
  · have h1 : (fsFind (updateEntry w.fs a "") a).isSome := by
      have h2 := fsFind_updateEntry_contents w.fs a ""
      cases hf : fsFind (updateEntry w.fs a "") a with
      | none => rw [hf] at h2; simp at h2
      | some e => simp
    simp [setupRedirects, emptyBindings, ha, ensureEntry_of_isSome _ _ h1]
  · simp [executeExternal, hfind, herr]

/-- C5 witness: concrete redirect lists for both parts. -/
theorem setupRedirects_append_wins_and_failure_aborts_witness :
    setupRedirects [⟨RedirectType.output, 1, "a.out", ""⟩, ⟨RedirectType.append, 1, "a.out", ""⟩]
        ⟨[], [], [("a.out", ⟨"old", false⟩)], [], 0, 0, []⟩ emptyBindings
      = (Except.ok ⟨none, some ("a.out", true), none⟩,
         { (⟨[], [], [("a.out", ⟨"old", false⟩)], [], 0, 0, []⟩ : World) with
             fs := updateEntry [("a.out", ⟨"old", false⟩)] "a.out" "" }) ∧
    (fsFind (updateEntry [("a.out", (⟨"old", false⟩ : FileEntry))] "a.out" "") "a.out").map
        (fun e => e.contents) = some "" ∧
    executeExternal ⟨1, [], fun _ _ => 0⟩ "x" [] [⟨RedirectType.input, 0, "nope", ""⟩]
        ⟨[⟨"PATH", "/b", false, false, false, []⟩], [], [("/b/x", ⟨"", true⟩)], [], 0, 0, []⟩ =
      (1, pushEvent ⟨[⟨"PATH", "/b", false, false, false, []⟩], [], [("/b/x", ⟨"", true⟩)],
          [], 0, 0, []⟩ (Event.report ("gosh: " ++ ("cannot open " ++ "nope")))) :=
  setupRedirects_append_wins_and_failure_aborts
    ⟨[], [], [("a.out", ⟨"old", false⟩)], [], 0, 0, []⟩ "a.out" ⟨1, [], fun _ _ => 0⟩ "x" []
    [⟨RedirectType.input, 0, "nope", ""⟩] ("cannot open " ++ "nope") "/b/x"
    ⟨[⟨"PATH", "/b", false, false, false, []⟩], [], [("/b/x", ⟨"", true⟩)], [], 0, 0, []⟩
    ⟨[⟨"PATH", "/b", false, false, false, []⟩], [], [("/b/x", ⟨"", true⟩)], [], 0, 0, []⟩
    (by decide) rfl rfl

/-- C5 (counterexample): with `a.out` holding "old", setting up `> a.out`
then `>> a.out` leaves the output binding in append mode, yet the file is
truncated to empty contents — its existing contents were destroyed at a
point of the command's execution, refuting "only ever appended to, never
truncated". -/
theorem setupRedirects_truncates_despite_append :
    (setupRedirects [⟨RedirectType.output, 1, "a.out", ""⟩,
        ⟨RedirectType.append, 1, "a.out", ""⟩]
        ⟨[], [], [("a.out", ⟨"old", false⟩)], [], 0, 0, []⟩ emptyBindings).1
      = Except.ok ⟨none, some ("a.out", true), none⟩ ∧
    (fsFind ((setupRedirects [⟨RedirectType.output, 1, "a.out", ""⟩,
        ⟨RedirectType.append, 1, "a.out", ""⟩]
        ⟨[], [], [("a.out", ⟨"old", false⟩)], [], 0, 0, []⟩ emptyBindings).2).fs "a.out").map
        (fun e => e.contents) = some "" ∧
    ("old" : String) ≠ "" :=
  ⟨rfl, rfl, by decide⟩

/-- C6 (amended): variable substitution is textual, and for a name present
in the variable store it replaces **every** `$NAME` and `$\x7bNAME\x7d`
occurrence by that variable's current value — stated universally over the
name, value, flags, pid, the surrounding store entries, and texts
interleaving arbitrarily many occurrences with arbitrary `$`-free pieces;
a text whose `$`-occurrences name only variables absent from the store is
left verbatim (no empty-string substitution); every `$$` occurrence is
replaced by the interpreter's own pid and every `$?` occurrence by the
literal "0", not the previous command's real exit status; and in a mixed
text the stored name is substituted while the unset occurrence stays
literal. -/
theorem substituteVariables_replaces_each_occurrence
    (n v : String) (exp ro arr : Bool) (vals : List String)
    (vs1 vs2 vars : List Variable) (pid : Nat) (xs : List String) (t : String)
    (hn : n ≠ "")
    (hdn : ('$' : Char) ∉ n.toList)
    (hbn : ('\x7b' : Char) ∉ n.toList)
    (hv : ('$' : Char) ∉ v.toList)
    (hxs : ∀ x ∈ xs, ('$' : Char) ∉ x.toList)
    (hvs1a : ∀ u ∈ vs1, hasOccStr ("$" ++ u.name) (joinWith ("$" ++ n) xs) = false ∧
      hasOccStr ("$\x7b" ++ u.name ++ "\x7d") (joinWith ("$" ++ n) xs) = false)
    (hvs1b : ∀ u ∈ vs1,
      hasOccStr ("$" ++ u.name) (joinWith ("$\x7b" ++ n ++ "\x7d") xs) = false ∧
      hasOccStr ("$\x7b" ++ u.name ++ "\x7d") (joinWith ("$\x7b" ++ n ++ "\x7d") xs) = false)
    (hvs2 : ∀ u ∈ vs2, hasOccStr ("$" ++ u.name) (joinWith v xs) = false ∧
      hasOccStr ("$\x7b" ++ u.name ++ "\x7d") (joinWith v xs) = false)
    (hvars : ∀ u ∈ vars, hasOccStr ("$" ++ u.name) t = false ∧
      hasOccStr ("$\x7b" ++ u.name ++ "\x7d") t = false)
    (ht2 : hasOccStr "$$" t = false) (ht3 : hasOccStr "$?" t = false)
    (hpid : ('$' : Char) ∉ (toString pid).toList) :
    substituteVariables (vs1 ++ ⟨n, v, exp, ro, arr, vals⟩ :: vs2) pid
        (joinWith ("$" ++ n) xs) = joinWith v xs ∧
    substituteVariables (vs1 ++ ⟨n, v, exp, ro, arr, vals⟩ :: vs2) pid
        (joinWith ("$\x7b" ++ n ++ "\x7d") xs) = joinWith v xs ∧
    substituteVariables vars pid t = t ∧
    substituteVariables [] pid (joinWith "$$" xs) = joinWith (toString pid) xs ∧
    substituteVariables [] pid (joinWith "$?" xs) = joinWith "0" xs ∧
    substituteVariables [⟨"FOO", "bar", false, false, false, []⟩] 7 "$FOO and $BAR"
      = "bar and $BAR" := by
  have hnod : ('$' : Char) ∉ (joinWith v xs).toList := by
    rw [toList_joinWith]
    exact not_mem_joinWithL '$' v.toList (xs.map String.toList) hv
      (map_toList_no_char '$' xs hxs)
  refine ⟨?_, ?_, ?_, ?_, ?_, by decide⟩
  · rw [substituteVariables_unfold, List.foldl_append, foldl_subst_fixed vs1 _ hvs1a]
    simp only [List.foldl_cons]
    rw [replaceAllStr_joinWith ("$" ++ n) v '$' n.toList (toList_dollar_append n) xs hxs]
    rw [replaceAllStr_head_absent (joinWith v xs) ("$\x7b" ++ n ++ "\x7d") v '$'
      ('\x7b' :: (n.toList ++ ['\x7d'])) (toList_brace_pattern n) hnod]
    rw [foldl_subst_fixed vs2 _ hvs2]
    rw [replaceAllStr_head_absent (joinWith v xs) "$$" (toString pid) '$' ['$'] rfl hnod]
    rw [replaceAllStr_head_absent (joinWith v xs) "$?" "0" '$' ['?'] rfl hnod]
  · obtain ⟨n0, ntail, hts⟩ := toList_ne_nil n hn
    have hnoin : hasOccStr ("$" ++ n) (joinWith ("$\x7b" ++ n ++ "\x7d") xs) = false := by
      unfold hasOccStr
      rw [toList_dollar_append, toList_joinWith, toList_brace_pattern, hts]
      apply hasOcc_joinWithL_ne '$' n0 '\x7b' ntail ((n0 :: ntail) ++ ['\x7d'])
        (xs.map String.toList)
      · intro he
        apply hbn
        rw [hts, he]
        exact List.mem_cons_self _ _
      · intro hmem
        have hcases : ('$' : Char) ∈ n.toList ∨ ('$' : Char) = '\x7b' ∨
            ('$' : Char) = '\x7d' := by
          rcases List.mem_cons.mp hmem with h1 | h2
          · exact Or.inr (Or.inl h1)
          · rcases List.mem_append.mp h2 with h3 | h4
            · left; rw [hts]; exact h3
            · exact Or.inr (Or.inr (List.mem_singleton.mp h4))
        rcases hcases with h | h | h
        · exact hdn h
        · exact absurd h (by decide)
        · exact absurd h (by decide)
      · exact map_toList_no_char '$' xs hxs
    rw [substituteVariables_unfold, List.foldl_append, foldl_subst_fixed vs1 _ hvs1b]
    simp only [List.foldl_cons]
    rw [replaceAllStr_no_occ _ _ _ hnoin]
    rw [replaceAllStr_joinWith ("$\x7b" ++ n ++ "\x7d") v '$'
      ('\x7b' :: (n.toList ++ ['\x7d'])) (toList_brace_pattern n) xs hxs]
    rw [foldl_subst_fixed vs2 _ hvs2]
    rw [replaceAllStr_head_absent (joinWith v xs) "$$" (toString pid) '$' ['$'] rfl hnod]
    rw [replaceAllStr_head_absent (joinWith v xs) "$?" "0" '$' ['?'] rfl hnod]
  · rw [substituteVariables_unfold, foldl_subst_fixed vars t hvars,
      replaceAllStr_no_occ _ _ _ ht2, replaceAllStr_no_occ _ _ _ ht3]
  · have hnodp : ('$' : Char) ∉ (joinWith (toString pid) xs).toList := by
      rw [toList_joinWith]
      exact not_mem_joinWithL '$' (toString pid).toList (xs.map String.toList) hpid
        (map_toList_no_char '$' xs hxs)
    rw [substituteVariables_unfold]
    simp only [List.foldl_nil]
    rw [replaceAllStr_joinWith "$$" (toString pid) '$' ['$'] rfl xs hxs]
    rw [replaceAllStr_head_absent (joinWith (toString pid) xs) "$?" "0" '$' ['?'] rfl hnodp]
  · have hno5 : hasOccStr "$$" (joinWith "$?" xs) = false := by
      unfold hasOccStr
      rw [toList_joinWith]
      exact hasOcc_joinWithL_ne '$' '$' '?' [] [] (xs.map String.toList) (by decide)
        (by decide) (map_toList_no_char '$' xs hxs)
    rw [substituteVariables_unfold]
    simp only [List.foldl_nil]
    rw [replaceAllStr_no_occ _ _ _ hno5]
    rw [replaceAllStr_joinWith "$?" "0" '$' ['?'] rfl xs hxs]

/-- C6 witness: a store `A, FOO, B` with `FOO = bar`, pieces "a " and
" b", pid 7 and the unset-name text `$UNSET`. -/
theorem substituteVariables_replaces_each_occurrence_witness :
    substituteVariables ([⟨"A", "1", false, false, false, []⟩] ++
        (⟨"FOO", "bar", false, false, false, []⟩ : Variable) ::
        [⟨"B", "2", false, false, false, []⟩]) 7
        (joinWith ("$" ++ "FOO") ["a ", " b"]) = joinWith "bar" ["a ", " b"] ∧
    substituteVariables ([⟨"A", "1", false, false, false, []⟩] ++
        (⟨"FOO", "bar", false, false, false, []⟩ : Variable) ::
        [⟨"B", "2", false, false, false, []⟩]) 7
        (joinWith ("$\x7b" ++ "FOO" ++ "\x7d") ["a ", " b"]) = joinWith "bar" ["a ", " b"] ∧
    substituteVariables [⟨"FOO", "bar", false, false, false, []⟩] 7 "$UNSET" = "$UNSET" ∧
    substituteVariables [] 7 (joinWith "$$" ["a ", " b"]) = joinWith (toString 7) ["a ", " b"] ∧
    substituteVariables [] 7 (joinWith "$?" ["a ", " b"]) = joinWith "0" ["a ", " b"] ∧
    substituteVariables [⟨"FOO", "bar", false, false, false, []⟩] 7 "$FOO and $BAR"
      = "bar and $BAR" :=
  substituteVariables_replaces_each_occurrence "FOO" "bar" false false false []
    [⟨"A", "1", false, false, false, []⟩] [⟨"B", "2", false, false, false, []⟩]
    [⟨"FOO", "bar", false, false, false, []⟩] 7 ["a ", " b"] "$UNSET"
    (by decide) (by decide) (by decide) (by decide) (by decide) (by decide) (by decide)
    (by decide) (by decide) (by decide) (by decide) (by decide)

/-- C6 (counterexample): a `$NAME` occurrence whose name is unset (absent
from the store, which also mirrors the startup environment) is left as the
literal text `$FOO`, not replaced by the empty string as claimed. -/
theorem substituteVariables_unset_left_literal :
    substituteVariables [] 42 "$FOO" = "$FOO" ∧ ("$FOO" : String) ≠ "" := by decide

/-- C7 (code bug): a monitored process that exits cleanly with the
non-zero code 1 is recorded with final state Killed, because the monitor
branches on `Cmd.Wait` returning an error — which it does for every
non-zero exit — while the claim (and spec) require Done for every clean
exit, zero or non-zero. The finish time and exit code are still
recorded. -/
theorem monitorUpdate_nonzero_clean_exit_marks_killed :
    monitorUpdate ⟨JobState.running, 0, none⟩ (WaitResult.exited 1) 3
      = ⟨JobState.killed, 1, some 3⟩ ∧
    JobState.killed ≠ JobState.done := by decide

/-- C8 (code bug): Done and Killed are not terminal against the monitor
task: `Kill` marks a running job Killed, but the monitor unconditionally
overwrites the state when the process exit is observed — observing a clean
zero exit flips the already-Killed job to Done. (`Kill`, `Stop` and
`Continue` do guard the source state.) -/
theorem monitorUpdate_overwrites_terminal_state :
    killUpdate ⟨JobState.running, 0, none⟩ true 5
      = Except.ok ⟨JobState.killed, 0, some 5⟩ ∧
    (monitorUpdate ⟨JobState.killed, 0, some 5⟩ (WaitResult.exited 0) 9).state
      = JobState.done ∧
    JobState.done ≠ JobState.killed :=
  ⟨rfl, rfl, by decide⟩

/-- The list-evaluation loop agrees with the spec's description on every
non-empty command list, whatever the initial accumulator. -/
theorem executeListGo_nonempty_eq (exec : Command → World → Int × World) :
    ∀ (cs : List Command) (c : Command) (ops : List String) (acc : Int) (w : World),
      executeListGo exec (c :: cs) ops acc w = executeListFromSpec exec (c :: cs) ops w := by
  intro cs
  induction cs with
  | nil =>
    intro c ops acc w
    cases ops with
    | nil => rfl
    | cons op rest =>
      have hL : executeListGo exec [c] (op :: rest) acc w =
          if op = "&&" then
            (if (exec c w).1 ≠ 0 then exec c w
             else executeListGo exec [] rest (exec c w).1 (exec c w).2)
          else if op = "||" then
            (if (exec c w).1 = 0 then exec c w
             else executeListGo exec [] rest (exec c w).1 (exec c w).2)
          else executeListGo exec [] rest (exec c w).1 (exec c w).2 := rfl
      have h0 : executeListGo exec [] rest (exec c w).1 (exec c w).2 = exec c w := rfl
      have hR : executeListFromSpec exec [c] (op :: rest) w = exec c w := rfl
      rw [hL, h0, hR]
      split_ifs <;> rfl
  | cons c2 cs2 ih =>
    intro c ops acc w
    cases ops with
    | nil =>
      have hL : executeListGo exec (c :: c2 :: cs2) [] acc w
          = executeListGo exec (c2 :: cs2) [] (exec c w).1 (exec c w).2 := rfl
      have hR : executeListFromSpec exec (c :: c2 :: cs2) [] w
          = executeListFromSpec exec (c2 :: cs2) [] (exec c w).2 := rfl
      rw [hL, hR]
      exact ih c2 [] (exec c w).1 (exec c w).2
    | cons op rest =>
      have hL : executeListGo exec (c :: c2 :: cs2) (op :: rest) acc w =
          if op = "&&" then
            (if (exec c w).1 ≠ 0 then exec c w
             else executeListGo exec (c2 :: cs2) rest (exec c w).1 (exec c w).2)
          else if op = "||" then
            (if (exec c w).1 = 0 then exec c w
             else executeListGo exec (c2 :: cs2) rest (exec c w).1 (exec c w).2)
          else executeListGo exec (c2 :: cs2) rest (exec c w).1 (exec c w).2 := rfl
      have hR : executeListFromSpec exec (c :: c2 :: cs2) (op :: rest) w =
          if (op = "&&" ∧ (exec c w).1 ≠ 0) ∨ (op = "||" ∧ (exec c w).1 = 0) then exec c w
          else executeListFromSpec exec (c2 :: cs2) rest (exec c w).2 := rfl
      rw [hL, hR]
      simp only [ih]
      split_ifs <;> first | rfl | tauto | simp_all

/-- C9: list evaluation proceeds left to right and stops at the first
element followed by `&&` whose status is non-zero, and at the first
element followed by `||` whose status is zero; the returned status is that
of the last element actually evaluated (0 for an empty list): the source's
loop (`executeList`) coincides with the independent rendering of the
spec's sentence (`executeListFromSpec`) on all inputs. -/
theorem executeList_matches_spec (exec : Command → World → Int × World)
    (cmds : List Command) (ops : List String) (w : World) :
    executeList exec cmds ops w = executeListFromSpec exec cmds ops w := by
  cases cmds with
  | nil => rfl
  | cons c cs => exact executeListGo_nonempty_eq exec cs c ops 0 w

/-- The `for` loop agrees with the fold rendering of the spec's sentence,
whatever the initial accumulator. -/
theorem executeForGo_eq_foldl (exec : Command → World → Int × World) (v : String)
    (body : Command) :
    ∀ (values : List String) (acc : Int) (w : World),
      executeForGo exec v body values acc w
        = values.foldl
            (fun r val => exec body (pushEvent (worldSetVar r.2 v val) Event.bodyRun))
            (acc, w) := by
  intro values
  induction values with
  | nil => intro acc w; rfl
  | cons val vs ih =>
    intro acc w
    simp only [executeForGo, List.foldl_cons]
    rw [ih]

/-- Each iteration of the `for` loop contributes exactly one `bodyRun`
event, provided the body itself only appends non-`bodyRun` events. -/
theorem executeForGo_bodyRun_count (exec : Command → World → Int × World) (v : String)
    (body : Command)
    (hnb : ∀ c w', ∃ t, ((exec c w').2).trace = w'.trace ++ t ∧ Event.bodyRun ∉ t) :
    ∀ (values : List String) (acc : Int) (w : World),
      (((executeForGo exec v body values acc w).2).trace).count Event.bodyRun
        = w.trace.count Event.bodyRun + values.length := by
  intro values
  induction values with
  | nil => intro acc w; simp [executeForGo]
  | cons val vs ih =>
    intro acc w
    obtain ⟨t, ht, hnm⟩ := hnb body (pushEvent (worldSetVar w v val) Event.bodyRun)
    simp only [executeForGo]
    rw [ih]
    rw [ht]
    simp [pushEvent, worldSetVar_trace, List.count_append, List.count_eq_zero.mpr hnm]
    omega

/-- After running the loop on `vs ++ [val]`, the loop variable holds
`val`, provided it starts absent or writable and the body preserves its
entry. -/
theorem executeForGo_last_value (exec : Command → World → Int × World) (v : String)
    (body : Command)
    (hpres : ∀ c w', lookupVar ((exec c w').2).vars v = lookupVar w'.vars v) :
    ∀ (vs : List String) (val : String) (acc : Int) (w : World),
      (lookupVar w.vars v = none ∨ ∃ e, lookupVar w.vars v = some e ∧ e.readOnly = false) →
      varValue ((executeForGo exec v body (vs ++ [val]) acc w).2) v = some val := by
  intro vs
  induction vs with
  | nil =>
    intro val acc w hw
    obtain ⟨exp, hbind⟩ := worldSetVar_binds w v val hw
    simp only [List.nil_append, executeForGo]
    unfold varValue
    rw [hpres]
    rw [pushEvent_vars]
    rw [hbind]
    rfl
  | cons v0 vs0 ih =>
    intro val acc w hw
    simp only [List.cons_append, executeForGo]
    apply ih
    obtain ⟨exp, hbind⟩ := worldSetVar_binds w v v0 hw
    right
    refine ⟨⟨v, v0, exp, false, false, []⟩, ?_, rfl⟩
    rw [hpres]
    rw [pushEvent_vars]
    exact hbind

/-- C10 (amended): the body is evaluated exactly `len(values)` times, and
before each body evaluation the executor calls `Set` on the loop variable
but silently discards its error (a read-only loop variable is therefore
not rebound while the body still runs); the result is the final
iteration's status, or 0 when the list is empty, and the store is
untouched by an empty loop; when the variable starts absent or writable
and the body preserves its entry, after the loop it holds the last value
of the list. -/
theorem executeFor_amended (exec : Command → World → Int × World) (v : String)
    (body : Command) (w : World) (values vsInit : List String) (lastVal : String)
    (hsplit : values = vsInit ++ [lastVal])
    (hnb : ∀ c w', ∃ t, ((exec c w').2).trace = w'.trace ++ t ∧ Event.bodyRun ∉ t)
    (hpres : ∀ c w', lookupVar ((exec c w').2).vars v = lookupVar w'.vars v)
    (hro : lookupVar w.vars v = none ∨ ∃ e, lookupVar w.vars v = some e ∧ e.readOnly = false) :
    executeFor exec v values body w = executeForFromSpec exec v values body w ∧
    executeFor exec v [] body w = (0, w) ∧
    (((executeFor exec v values body w).2).trace).count Event.bodyRun
      = w.trace.count Event.bodyRun + values.length ∧
    varValue ((executeFor exec v values body w).2) v = some lastVal := by
  refine ⟨executeForGo_eq_foldl exec v body values 0 w, rfl,
    executeForGo_bodyRun_count exec v body hnb values 0 w, ?_⟩
  subst hsplit
  exact executeForGo_last_value exec v body hpres vsInit lastVal 0 w hro

/-- C10 witness: a two-element loop over a fresh variable with a body of
constant status 3. -/
theorem executeFor_amended_witness :
    executeFor (fun _ p => ((3 : Int), p)) "x" ["a", "c"] (Command.simple ⟨"b", [], []⟩)
        ⟨[], [], [], [], 0, 0, []⟩
      = executeForFromSpec (fun _ p => ((3 : Int), p)) "x" ["a", "c"]
          (Command.simple ⟨"b", [], []⟩) ⟨[], [], [], [], 0, 0, []⟩ ∧
    executeFor (fun _ p => ((3 : Int), p)) "x" [] (Command.simple ⟨"b", [], []⟩)
        ⟨[], [], [], [], 0, 0, []⟩ = (0, ⟨[], [], [], [], 0, 0, []⟩) ∧
    (((executeFor (fun _ p => ((3 : Int), p)) "x" ["a", "c"] (Command.simple ⟨"b", [], []⟩)
        ⟨[], [], [], [], 0, 0, []⟩).2).trace).count Event.bodyRun
      = ((⟨[], [], [], [], 0, 0, []⟩ : World).trace).count Event.bodyRun + (["a", "c"] : List String).length ∧
    varValue ((executeFor (fun _ p => ((3 : Int), p)) "x" ["a", "c"]
        (Command.simple ⟨"b", [], []⟩) ⟨[], [], [], [], 0, 0, []⟩).2) "x" = some "c" :=
  executeFor_amended (fun _ p => ((3 : Int), p)) "x" (Command.simple ⟨"b", [], []⟩)
    ⟨[], [], [], [], 0, 0, []⟩ ["a", "c"] ["a"] "c" rfl
    (fun _ w' => ⟨[], by simp, by simp⟩) (fun _ _ => rfl) (Or.inl rfl)

/-- C10 (counterexample): with the loop variable `x` read-only holding
"r", running `for x in a` leaves `x` at "r" — the loop variable is neither
bound before the body evaluation nor left holding the last list value
after the loop, because `executeFor` ignores the error returned by `Set`
(the body still runs). -/
theorem executeFor_readonly_not_bound :
    varValue ((executeFor (fun _ p => ((7 : Int), p)) "x" ["a"] (Command.simple ⟨"b", [], []⟩)
        ⟨[⟨"x", "r", false, true, false, []⟩], [], [], [], 0, 0, []⟩).2) "x" = some "r" ∧
    (some "r" : Option String) ≠ some "a" := by decide

end Gosh
